import Mathlib

/-!
Verification of the peer-to-peer BitTorrent client backend.

The Python sources are shallowly embedded as Lean definitions:
bytes become `List Nat` (each element a byte value), Python `int`
becomes `Int`/`Nat`, exceptions become `Except Unit` or `Option`,
and streams become explicit `(value, rest)` threading.
-/

/-! ## Byte-level helpers -/

/-- ASCII bytes of a string (all inputs used here are ASCII). -/
def strBytes (s : String) : List Nat := s.toList.map Char.toNat

/-- Test for an ASCII digit byte, mirroring Python `bytes.isdigit` on a
single byte. -/
def isDigit (c : Nat) : Bool := 48 ≤ c && c ≤ 57

/-- Accumulate ASCII digit bytes into a number, mirroring the
`result = result * 10 + int(char)` loop of `decode_int` and `int(length_str)`
in `decode_string` (src/backend/app/bencode.py). -/
def digitsToNat (ds : List Nat) : Nat := ds.foldl (fun a c => a * 10 + (c - 48)) 0

/-- ASCII decimal digits of a natural number, most significant first
(the digits of Python `str(n)` for `n ≥ 0`); fuel-indexed so that the
recursion is structural (any fuel above the number suffices). -/
def natToDigitsF : Nat → Nat → List Nat
  | 0, _ => []
  | fuel + 1, n => if n < 10 then [48 + n] else natToDigitsF fuel (n / 10) ++ [48 + n % 10]

/-- ASCII decimal digits of a natural number, most significant first. -/
def natToDigits (n : Nat) : List Nat := natToDigitsF (n + 1) n

/-- ASCII bytes of Python `str(i)` for an arbitrary integer. -/
def intToBytes (i : Int) : List Nat :=
  if i < 0 then 45 :: natToDigits i.natAbs else natToDigits i.toNat

/-! ## Bencode values

The value space of the Python decoder: `int`, `bytes`, `list`, `dict`
(an insertion-ordered association list, as Python dicts are), plus
`null` for Python `None`, which `decode` returns when it reads the end
marker `e` (src/backend/app/bencode.py line 83). -/

inductive BVal : Type where
  | int : Int → BVal
  | str : List Nat → BVal
  | list : List BVal → BVal
  | dict : List (List Nat × BVal) → BVal
  | null : BVal

/-- First-match association-list lookup with decidable key equality,
modelling Python dict indexing (`info[b'name']`); Python dicts never
hold duplicate keys, so first-match agrees with dict lookup. -/
def lookupA (k : List Nat) : List (List Nat × BVal) → Option BVal
  | [] => none
  | (k', v) :: r => if k' = k then some v else lookupA k r

/-! ## Decoder (src/backend/app/bencode.py)

`decode_int` / `decode_string` read from the stream; here the stream is
the remaining byte list and each parser returns `(value, rest)`.
Raised exceptions (`BencodeDecodeError`, `ValueError`) become
`Except.error ()`. -/

/-- Body of `decode_int` after the leading `i` has been consumed:
optional `-` sign, a run of digits, then the mandatory `e`.
(Python reads characters one at a time; the consumed run of digits is
exactly `takeWhile isDigit`, and the first non-digit read must be `e`.) -/
def decIntDigits (sign : Int) (s : List Nat) : Except Unit (Int × List Nat) :=
  match s.dropWhile isDigit with
  | 101 :: r' => .ok (sign * (digitsToNat (s.takeWhile isDigit) : Int), r')
  | _ => .error ()

/-- `decode_int` (bencode.py lines 12-34): a first read of `-` sets the
sign, any other first character participates in the digit loop.  Note
that it accepts `-0` (and even a bare sign) because the digit loop
simply stops at `e`. -/
def decInt (s : List Nat) : Except Unit (Int × List Nat) :=
  match s with
  | c :: rest => if c = 45 then decIntDigits (-1) rest else decIntDigits 1 (c :: rest)
  | [] => decIntDigits 1 []

/-- `decode_string` (bencode.py lines 36-54): a run of digits, `:`, then
`stream.read(length)`.  `BytesIO.read(n)` returns at most `n` bytes and
never fails, hence the plain `take`/`drop`; `int(b"")` raising on an
empty digit run is the inner error case. -/
def decStr (s : List Nat) : Except Unit (List Nat × List Nat) :=
  match s.dropWhile isDigit with
  | 58 :: r' =>
    if (s.takeWhile isDigit).isEmpty then .error ()
    else .ok (r'.take (digitsToNat (s.takeWhile isDigit)),
              r'.drop (digitsToNat (s.takeWhile isDigit)))
  | _ => .error ()

mutual

/-- `decode` / `_decode_list` / `_decode_dict` (bencode.py lines 56-108).
The fuel argument only realises termination of the recursion — Python
terminates because every `decode` call consumes at least one stream
byte — and the top-level wrapper `bdecode` supplies more fuel than any
input can use (every fuel decrement accompanies at least one consumed
byte or one nesting step into already-consumed input).  Reading `e`
yields `.null` (Python `None`); the list and dict loops stop when an
element/key decodes to `.null`; a dict value may itself be `.null`,
which is stored like any value. -/
def decodeF : Nat → List Nat → Except Unit (BVal × List Nat)
  | 0, _ => .error ()
  | _ + 1, [] => .error ()
  | fuel + 1, c :: rest =>
    if c = 105 then
      match decInt rest with
      | .ok (i, r) => .ok (.int i, r)
      | .error e => .error e
    else if isDigit c then
      match decStr (c :: rest) with
      | .ok (s, r) => .ok (.str s, r)
      | .error e => .error e
    else if c = 108 then
      match decodeLF fuel rest with
      | .ok (l, r) => .ok (.list l, r)
      | .error e => .error e
    else if c = 100 then
      match decodeDF fuel rest with
      | .ok (d, r) => .ok (.dict d, r)
      | .error e => .error e
    else if c = 101 then .ok (.null, rest)
    else .error ()

/-- `_decode_list`: decode elements until one comes back `None`. -/
def decodeLF : Nat → List Nat → Except Unit (List BVal × List Nat)
  | 0, _ => .error ()
  | fuel + 1, s =>
    match decodeF fuel s with
    | .ok (.null, r) => .ok ([], r)
    | .ok (v, r) =>
      match decodeLF fuel r with
      | .ok (vs, r') => .ok (v :: vs, r')
      | .error e => .error e
    | .error e => .error e

/-- `_decode_dict`: decode a key (must be a byte string; `None` ends the
dict), then a value, and continue. -/
def decodeDF : Nat → List Nat → Except Unit (List (List Nat × BVal) × List Nat)
  | 0, _ => .error ()
  | fuel + 1, s =>
    match decodeF fuel s with
    | .ok (.null, r) => .ok ([], r)
    | .ok (.str key, r) =>
      match decodeF fuel r with
      | .ok (v, r') =>
        match decodeDF fuel r' with
        | .ok (es, r'') => .ok ((key, v) :: es, r'')
        | .error e => .error e
      | .error e => .error e
    | .ok (_, _) => .error ()
    | .error e => .error e

end

/-- `bdecode` (bencode.py lines 140-142): decode one value from the
byte string, discarding the stream position.  `2·length + 4` fuel is
always sufficient: along any recursion path at most two fuel units are
spent per input byte consumed. -/
def bdecode (s : List Nat) : Except Unit BVal :=
  match decodeF (2 * s.length + 4) s with
  | .ok (v, _) => .ok v
  | .error e => .error e

/-! ## Encoder (src/backend/app/bencode.py lines 110-138) -/

/-- Byte-lexicographic `≤` on byte strings: Python `bytes` comparison. -/
def bytesLe : List Nat → List Nat → Bool
  | [], _ => true
  | _ :: _, [] => false
  | a :: as, b :: bs => decide (a < b) || (decide (a = b) && bytesLe as bs)

/-- The sort relation used for dict entries: compare keys only.
Python sorts the `(key, value)` item pairs, which on the distinct keys
of a dict is exactly a key sort. -/
def entryLe {β : Type} (p q : List Nat × β) : Prop := bytesLe p.1 q.1 = true

instance {β : Type} : DecidableRel (entryLe (β := β)) := fun p q => by
  unfold entryLe; infer_instance

/-- Strict key order on dict entries: keys weakly ordered and distinct. -/
def entryLt {β : Type} (p q : List Nat × β) : Prop :=
  bytesLe p.1 q.1 = true ∧ p.1 ≠ q.1

/-- Encoding of a byte string: `f"{len(obj)}:".encode() + obj`. -/
def encStrBytes (s : List Nat) : List Nat := natToDigits s.length ++ 58 :: s

/-- Concatenate encoded dict entries: for each `(key, encodedValue)` in
order, the encoded key then the encoded value. -/
def joinEntries (es : List (List Nat × List Nat)) : List Nat :=
  es.foldr (fun p acc => encStrBytes p.1 ++ p.2 ++ acc) []

/-- Sort (key, encodedValue) pairs by key, as Python
`sorted(obj.items())` does on a dict's distinct keys. -/
def sortEntries (es : List (List Nat × List Nat)) : List (List Nat × List Nat) :=
  List.insertionSort entryLe es

mutual

/-- `encode` (bencode.py lines 110-138).  `.null` (Python `None`) is an
unsupported type and raises `ValueError`.  For dicts, Python sorts the
items and then encodes each; here each value is encoded first and the
`(key, bytes)` pairs are then key-sorted and joined — the emitted bytes
are identical because entries are encoded independently, and the
error behaviour (fail iff some value is unencodable) agrees. -/
def encodeB : BVal → Except Unit (List Nat)
  | .int i => .ok (105 :: intToBytes i ++ [101])
  | .str s => .ok (encStrBytes s)
  | .list l =>
    match encodeL l with
    | .ok e => .ok (108 :: e ++ [101])
    | .error e => .error e
  | .dict d =>
    match encodeD d with
    | .ok ebs => .ok (100 :: joinEntries (sortEntries ebs) ++ [101])
    | .error e => .error e
  | .null => .error ()

/-- Encode list elements in order and concatenate. -/
def encodeL : List BVal → Except Unit (List Nat)
  | [] => .ok []
  | v :: vs =>
    match encodeB v with
    | .ok e =>
      match encodeL vs with
      | .ok es => .ok (e ++ es)
      | .error e' => .error e'
    | .error e' => .error e'

/-- Encode dict values in order, keeping each raw key. -/
def encodeD : List (List Nat × BVal) → Except Unit (List (List Nat × List Nat))
  | [] => .ok []
  | (k, v) :: es =>
    match encodeB v with
    | .ok ev =>
      match encodeD es with
      | .ok rest => .ok ((k, ev) :: rest)
      | .error e' => .error e'
    | .error e' => .error e'
end

/-! ## Python equality and well-formedness of values

`pyEq` is Python `==` on decoded values: integers and byte strings by
value, lists pointwise, dicts as key→value maps (same size, and every
key of the left dict maps to an equal value in the right one —
insertion order is irrelevant).  `wfB` captures the values Python can
pass to `encode` when they originate from real dicts: no `None`
anywhere, and dict keys are distinct (a Python dict cannot hold
duplicate keys). -/

mutual

/-- Python `==` on bencode values. -/
def pyEq : BVal → BVal → Bool
  | .int a, .int b => a == b
  | .str a, .str b => a == b
  | .list a, .list b => pyEqL a b
  | .dict a, .dict b => a.length == b.length && pyEqD a b
  | .null, .null => true
  | _, _ => false

/-- Pointwise Python `==` on lists. -/
def pyEqL : List BVal → List BVal → Bool
  | [], [] => true
  | x :: xs, y :: ys => pyEq x y && pyEqL xs ys
  | _, _ => false

/-- Every entry of the first dict is matched by a lookup in the second. -/
def pyEqD : List (List Nat × BVal) → List (List Nat × BVal) → Bool
  | [], _ => true
  | (k, v) :: es, b =>
    match lookupA k b with
    | some w => pyEq v w && pyEqD es b
    | none => false

end

/-- True when the key does not occur in the association list. -/
def keyAbsent (k : List Nat) : List (List Nat × BVal) → Bool
  | [] => true
  | (k', _) :: es => !(decide (k' = k)) && keyAbsent k es

mutual

/-- Well-formed encodable value: no `.null` and dict keys distinct. -/
def wfB : BVal → Bool
  | .int _ => true
  | .str _ => true
  | .null => false
  | .list l => wfL l
  | .dict d => wfD d

/-- Well-formedness of every list element. -/
def wfL : List BVal → Bool
  | [] => true
  | v :: vs => wfB v && wfL vs

/-- Well-formedness of dict entries: fresh key and well-formed value. -/
def wfD : List (List Nat × BVal) → Bool
  | [] => true
  | (k, v) :: es => keyAbsent k es && wfB v && wfD es

end

/-- Well-formedness of dict-entry values only (no key-distinctness);
unlike `wfD` this is invariant under permutation of the entries. -/
def wfDv : List (List Nat × BVal) → Bool
  | [] => true
  | (_, v) :: es => wfB v && wfDv es

/-- The per-entry relation between a dict entry and its encoding:
same key, and the value encodes to the given bytes. -/
def EncR (q : List Nat × BVal) (p : List Nat × List Nat) : Prop :=
  q.1 = p.1 ∧ encodeB q.2 = .ok p.2

/-- Sort entries of a `BVal`-valued association list by key. -/
def sortKV (d : List (List Nat × BVal)) : List (List Nat × BVal) :=
  List.insertionSort entryLe d

/-! ## Fuel bookkeeping for the decoder

`nodes` bounds (from above) the fuel the decoder spends on the encoding
of a value; it is a proof device, not part of the embedding. -/

mutual

/-- Fuel bound for decoding one encoded value. -/
def nodes : BVal → Nat
  | .int _ => 1
  | .str _ => 1
  | .null => 1
  | .list l => nodesL l + 1
  | .dict d => nodesD d + 1

/-- Fuel bound for the list-element loop (including the end marker). -/
def nodesL : List BVal → Nat
  | [] => 2
  | v :: vs => nodes v + nodesL vs

/-- Fuel bound for the dict-entry loop (including the end marker). -/
def nodesD : List (List Nat × BVal) → Nat
  | [] => 2
  | (_, v) :: es => nodes v + nodesD es

end

/-! ## SHA-1

A direct functional implementation of SHA-1 over byte lists, used to
state the info-hash and piece-verification claims.  Words are `Nat`
reduced modulo `2^32`. -/

/-- Rotate a 32-bit word left by `n` bits. -/
def rotl32 (x n : Nat) : Nat := ((x <<< n) ||| (x >>> (32 - n))) % 4294967296

/-- Big-endian bytes of a 32-bit word. -/
def be32enc (n : Nat) : List Nat := [n >>> 24 % 256, n >>> 16 % 256, n >>> 8 % 256, n % 256]

/-- Big-endian bytes of a 64-bit length field. -/
def be64enc (n : Nat) : List Nat :=
  [n >>> 56 % 256, n >>> 48 % 256, n >>> 40 % 256, n >>> 32 % 256,
   n >>> 24 % 256, n >>> 16 % 256, n >>> 8 % 256, n % 256]

/-- Split a list into chunks of `n` (the last may be shorter); the fuel
is an upper bound on the number of chunks. -/
def chunksF (n : Nat) : Nat → List Nat → List (List Nat)
  | 0, _ => []
  | _, [] => []
  | fuel + 1, l => l.take n :: chunksF n fuel (l.drop n)

/-- Split a list into chunks of `n` bytes; the last may be shorter. -/
def chunks (n : Nat) (l : List Nat) : List (List Nat) := chunksF n (l.length + 1) l

/-- SHA-1 message padding: `0x80`, zeros to 56 mod 64, 64-bit bit length. -/
def sha1Pad (msg : List Nat) : List Nat :=
  msg ++ 128 :: List.replicate ((119 - msg.length % 64) % 64) 0 ++ be64enc (msg.length * 8)

/-- Big-endian 32-bit words of a 64-byte chunk. -/
def toWords : List Nat → List Nat
  | a :: b :: c :: d :: rest => (((a * 256 + b) * 256 + c) * 256 + d) :: toWords rest
  | _ => []

/-- Round function of SHA-1. -/
def sha1F (t b c d : Nat) : Nat :=
  if t < 20 then (b &&& c) ||| ((b ^^^ 4294967295) &&& d)
  else if t < 40 then b ^^^ c ^^^ d
  else if t < 60 then (b &&& c) ||| (b &&& d) ||| (c &&& d)
  else b ^^^ c ^^^ d

/-- Round constants of SHA-1. -/
def sha1K (t : Nat) : Nat :=
  if t < 20 then 1518500249 else if t < 40 then 1859775393
  else if t < 60 then 2400959708 else 3395469782

/-- Extend 16 message words to the 80 schedule words. -/
def sha1Extend (ws : List Nat) : List Nat :=
  (List.range 64).foldl (fun acc i =>
    acc ++ [rotl32 ((acc.getD (i + 13) 0) ^^^ (acc.getD (i + 8) 0) ^^^
                    (acc.getD (i + 2) 0) ^^^ (acc.getD i 0)) 1]) ws

/-- The five running hash words of SHA-1. -/
structure Sha1State where
  h0 : Nat
  h1 : Nat
  h2 : Nat
  h3 : Nat
  h4 : Nat

/-- Compress one 64-byte chunk into the running state. -/
def sha1Chunk (h : Sha1State) (chunk : List Nat) : Sha1State :=
  let w := sha1Extend (toWords chunk)
  let s := (List.range 80).foldl (fun st t =>
    match st with
    | (a, b, c, d, e) =>
      ((rotl32 a 5 + sha1F t b c d + e + sha1K t + w.getD t 0) % 4294967296,
       a, rotl32 b 30, c, d)) (h.h0, h.h1, h.h2, h.h3, h.h4)
  match s with
  | (a, b, c, d, e) =>
    ⟨(h.h0 + a) % 4294967296, (h.h1 + b) % 4294967296, (h.h2 + c) % 4294967296,
     (h.h3 + d) % 4294967296, (h.h4 + e) % 4294967296⟩

/-- SHA-1 digest (20 bytes) of a byte list, as `hashlib.sha1(...).digest()`. -/
def sha1 (msg : List Nat) : List Nat :=
  let f := (chunks 64 (sha1Pad msg)).foldl sha1Chunk
    ⟨1732584193, 4023233417, 2562383102, 271733878, 3285377520⟩
  be32enc f.h0 ++ be32enc f.h1 ++ be32enc f.h2 ++ be32enc f.h3 ++ be32enc f.h4

/-! ## Torrent metadata (src/backend/app/torrent.py) -/

/-- Python `bytes.find(sub, start)` restricted to a non-negative start:
the least index `≥ start` where `sub` occurs, else `-1`. -/
def findSubAux (sub : List Nat) : List Nat → Nat → Option Nat
  | [], idx => if sub.isPrefixOf ([] : List Nat) then some idx else none
  | l@(_ :: t), idx => if sub.isPrefixOf l then some idx else findSubAux sub t (idx + 1)

/-- Python `data.find(sub, start)` for a non-negative start index. -/
def pyFind (data sub : List Nat) (start : Nat) : Int :=
  match findSubAux sub (data.drop start) start with
  | some i => (i : Int)
  | none => -1

/-- Python slice `data[start:stop]` with possibly negative indices
(negative indices count from the end; bounds are clamped). -/
def pySlice (data : List Nat) (start stop : Int) : List Nat :=
  let n : Int := data.length
  let s := if start < 0 then max 0 (n + start) else min start n
  let e := if stop < 0 then max 0 (n + stop) else min stop n
  (data.drop s.toNat).take (e.toNat - s.toNat)

/-- The byte span hashed by `Torrent._load_torrent_file` (torrent.py
line 85): `data[data.find(b'd8:infod') : data.find(b'e',
data.find(b'd8:infod') + 8) + 1]`.  The second `find`'s start is
`first + 8 ≥ 7`, so the non-negative-start `pyFind` applies. -/
def torrentInfoSpan (data : List Nat) : List Nat :=
  let start := pyFind data (strBytes "d8:infod") 0
  let stop := pyFind data [101] (start + 8).toNat + 1
  pySlice data start stop

/-- The `info_hash` stored on the `Torrent` at parse time
(torrent.py line 85): SHA-1 of the span above. -/
def torrentStoredInfoHash (data : List Nat) : List Nat := sha1 (torrentInfoSpan data)

/-- Python truthiness `bool(x)` on a decoded value (used by
`private = bool(info.get(b'private', 0))`). -/
def pyTruthy : BVal → Bool
  | .int i => !(i == 0)
  | .str s => !s.isEmpty
  | .list l => !l.isEmpty
  | .dict d => !d.isEmpty
  | .null => false

/-- `FileInfo` dataclass (torrent.py lines 14-19); `path` is the
segments joined by the separator, `length`/`md5sum` as in the source.
Strings are kept as their byte sequences. -/
structure FileInfo where
  path : List Nat
  length : Int
  md5sum : Option (List Nat)

/-- `TorrentInfo` dataclass (torrent.py lines 21-30); the Python field
`private` is called `priv` here (`private` is a Lean keyword). -/
structure TorrentInfo where
  name : List Nat
  piece_length : Int
  pieces : List (List Nat)
  priv : Bool
  files : Option (List FileInfo)
  length : Option Int
  md5sum : Option (List Nat)

/-- One entry of the `files` list in `_parse_info` (torrent.py lines
108-112): `path` must be a list of byte strings joined by the path
separator (`os.path.join` of zero segments raises), `length` is
required (`KeyError` otherwise), `md5sum` optional.  Values of an
unexpected shape make the Python statements raise and are errors here;
the dataclass fields are typed as in the source. -/
def parseFileEntry : BVal → Except Unit FileInfo
  | .dict d =>
    match lookupA (strBytes "path") d with
    | some (.list segsv) =>
      match segsv.mapM (fun v => match v with | .str s => some s | _ => none) with
      | some segs =>
        if segs.isEmpty then .error ()
        else
          match lookupA (strBytes "length") d with
          | some (.int len) =>
            match lookupA (strBytes "md5sum") d with
            | some (.str m) => .ok ⟨List.intercalate [47] segs, len, some m⟩
            | some _ => .error ()
            | none => .ok ⟨List.intercalate [47] segs, len, none⟩
          | _ => .error ()
      | none => .error ()
    | _ => .error ()
  | _ => .error ()

/-- `Torrent._parse_info` (torrent.py lines 96-133).  `name`,
`piece length` and `pieces` are required (missing keys raise
`KeyError`); `pieces` is chunked into 20-byte slices with no
multiple-of-20 check; `private` defaults to 0 and is passed through
`bool`.  If `files` is present the multi-file branch runs — a
coexisting `length` key is ignored — otherwise `length` is required. -/
def parseInfo (info : List (List Nat × BVal)) : Except Unit TorrentInfo :=
  match lookupA (strBytes "name") info with
  | some (.str name) =>
    match lookupA (strBytes "piece length") info with
    | some (.int plen) =>
      match lookupA (strBytes "pieces") info with
      | some (.str pb) =>
        let pieces := chunks 20 pb
        let priv := pyTruthy ((lookupA (strBytes "private") info).getD (.int 0))
        match lookupA (strBytes "files") info with
        | some fv =>
          match fv with
          | .list fl =>
            match fl.mapM parseFileEntry with
            | .ok files => .ok ⟨name, plen, pieces, priv, some files, none, none⟩
            | .error e => .error e
          | _ => .error ()
        | none =>
          match lookupA (strBytes "length") info with
          | some (.int len) =>
            match lookupA (strBytes "md5sum") info with
            | some (.str m) => .ok ⟨name, plen, pieces, priv, none, some len, some m⟩
            | some _ => .error ()
            | none => .ok ⟨name, plen, pieces, priv, none, some len, none⟩
          | _ => .error ()
      | _ => .error ()
    | _ => .error ()
  | _ => .error ()

/-! ## Tracker client (src/backend/app/tracker.py) -/

/-- The `Tracker` fields read by `_prepare_http_announce`: `info_hash`
and `peer_id` are bytes, the counters are Python ints. -/
structure TrackerState where
  info_hash : List Nat
  peer_id : List Nat
  uploaded : Int
  downloaded : Int
  left : Int

/-- A query-parameter value: Python keeps `info_hash`/`peer_id` as raw
bytes and the rest as strings. -/
inductive PVal : Type where
  | bs : List Nat → PVal
  | s : String → PVal

/-- `Tracker._prepare_http_announce` (tracker.py lines 59-70): the
parameter dict, in source order.  `port` is the literal `'6881'`;
`left` is clamped to `≥ 0`; an empty `event` becomes `'started'`. -/
def prepareHttpAnnounce (t : TrackerState) (event : String) : List (String × PVal) :=
  [("info_hash", .bs t.info_hash),
   ("peer_id", .bs t.peer_id),
   ("port", .s "6881"),
   ("uploaded", .s (toString t.uploaded)),
   ("downloaded", .s (toString t.downloaded)),
   ("left", .s (toString (max 0 t.left))),
   ("compact", .s "1"),
   ("event", .s (if event = "" then "started" else event))]

/-- First-match lookup of a query parameter by name. -/
def lookupParam (k : String) : List (String × PVal) → Option PVal
  | [] => none
  | (k', v) :: r => if k' = k then some v else lookupParam k r

/-- Dotted-quad rendering of four IPv4 bytes:
`'.'.join(str(b) for b in ip_bytes)`. -/
def ipString (a b c d : Nat) : String :=
  toString a ++ "." ++ toString b ++ "." ++ toString c ++ "." ++ toString d

/-- `Tracker._parse_peers_compact` (tracker.py lines 72-88): consume
6-byte groups — 4 IPv4 bytes then a big-endian 2-byte port — in input
order; stop (without error) as soon as fewer than 6 bytes remain. -/
def parsePeersCompact : List Nat → List (String × Nat)
  | a :: b :: c :: d :: p :: q :: rest =>
    (ipString a b c d, p * 256 + q) :: parsePeersCompact rest
  | _ => []

/-! ## Peer session (src/backend/app/peer.py) -/

/-- Big-endian value of a byte list (`struct.unpack('!I')` on 4 bytes,
`'!H'` on 2). -/
def beVal (l : List Nat) : Nat := l.foldl (fun a b => a * 256 + b) 0

/-- The response-handling half of `PeerConnection.request_piece`
(peer.py lines 110-125), as a function of the requested index/offset/
length and of the bytes subsequently read from the peer.  `readexactly`
raises when the stream is short (caught, yielding `None`); a zero
length is a keep-alive (`None`); a non-`piece` id falls through to
`None`; for id 7 the 4-byte index and 4-byte offset are read and
discarded — the requested `pieceIndex` and `block` are never compared
against them — and the `length - 9` payload bytes are returned
(`readexactly` of a negative size raises, hence `None` for lengths
1–8). -/
def requestPieceResponse (pieceIndex blockOffset blockLength : Nat) (stream : List Nat) :
    Option (List Nat) :=
  if stream.length < 4 then none
  else
    let len := beVal (stream.take 4)
    let s1 := stream.drop 4
    if len = 0 then none
    else if s1.length < 1 then none
    else if s1.headD 0 = 7 then
      let s2 := s1.drop 1
      if s2.length < 4 then none
      else
        let s3 := s2.drop 4
        if s3.length < 4 then none
        else
          let s4 := s3.drop 4
          if len < 9 then none
          else if s4.length < len - 9 then none
          else some (s4.take (len - 9))
    else none

/-! ## Download endpoint (src/backend/main.py) -/

/-- The success decision of `start_download` (main.py lines 892-921):
after `data = await peer.request_piece(...)`, the route reports
"Successfully downloaded piece" exactly when `data` is truthy —
a non-`None`, non-empty byte string.  No hash of `data` is computed
anywhere on this path. -/
def startDownloadSuccess : Option (List Nat) → Bool
  | some d => !d.isEmpty
  | none => false

/-! ## Concrete inputs used by the claims -/

/-- The bencoded `info` value of the minimal single-file metadata:
`{name: "a.txt", piece length: 16384, pieces: <one 20-byte hash>,
length: 16384}` with the 20-byte hash `00 01 ... 13`. -/
def minimalInfoBytes : List Nat :=
  strBytes "d6:lengthi16384e4:name5:a.txt12:piece lengthi16384e6:pieces20:"
    ++ List.range 20 ++ [101]

/-- The minimal single-file `.torrent` byte stream of claim C1:
`{announce: "http://x", info: {...}}`, with `minimalInfoBytes`
appearing literally as the raw bytes of the `info` value. -/
def minimalTorrent : List Nat :=
  strBytes "d8:announce8:http://x4:info" ++ minimalInfoBytes ++ [101]

/-- The decoded `info` dict of the minimal metadata, as `_parse_info`
receives it. -/
def minimalInfoDict : List (List Nat × BVal) :=
  [(strBytes "length", .int 16384),
   (strBytes "name", .str (strBytes "a.txt")),
   (strBytes "piece length", .int 16384),
   (strBytes "pieces", .str (List.range 20))]

/-- An `info` dict that carries both the single-file field `length`
and the multi-file field `files` (one file `"f"` of 3 bytes). -/
def bothShapesInfo : List (List Nat × BVal) :=
  minimalInfoDict ++
    [(strBytes "files",
      .list [.dict [(strBytes "path", .list [.str (strBytes "f")]),
                    (strBytes "length", .int 3)]])]

set_option maxRecDepth 10000

/-! ## Claims -/

/-- Claim C1 (code_bug).  The claim states that the `info_hash` stored
on the `Torrent` at parse time equals SHA-1 of the raw bytes of the
`info` value.  On the minimal single-file metadata the search pattern
`d8:infod` of torrent.py line 85 does not occur (the `info` key is
encoded `4:info`), `find` returns `-1`, and the slice
`data[-1 : data.find(b'e', 7) + 1]` is empty, so the stored hash is
SHA-1 of the empty byte string, not of the `info` bytes. -/
theorem c1_info_hash_bug :
    torrentStoredInfoHash minimalTorrent ≠ sha1 minimalInfoBytes
    ∧ torrentInfoSpan minimalTorrent = []
    ∧ torrentStoredInfoHash minimalTorrent = sha1 [] := by
  refine ⟨by decide, by decide, by decide⟩

/-- Claim C2 (code_bug).  The claim states that a piece is reported as
successfully downloaded only after SHA-1 of the data equals the
expected hash from the metadata.  The download route of main.py
reports success for any truthy block, computing no hash: with the
minimal metadata (whose single piece hash is `00 01 ... 13`), the
block `[1, 2, 3]` has a different SHA-1 yet is reported successful. -/
theorem c2_success_without_verification :
    startDownloadSuccess (some [1, 2, 3]) = true
    ∧ (parseInfo minimalInfoDict).map TorrentInfo.pieces = .ok [List.range 20]
    ∧ sha1 [1, 2, 3] ≠ List.range 20 := by
  refine ⟨rfl, rfl, by decide⟩

/-- Claim C3 counterexample.  The claim states that `decode` reports a
`DecodeError` on `"i-0e"`; in fact `decode_int` accepts the minus sign
and the zero digit and returns the integer `0`. -/
theorem c3_minus_zero_decodes : bdecode (strBytes "i-0e") = .ok (.int 0) := rfl

/-- Claim C3 (corrected).  Of the four malformed inputs, only `"i e"`
and the truncated dict `"d3:fooe"` are rejected; `"i-0e"` decodes to
the integer `0` and `"4:ab"` to the two available bytes `b"ab"`
(`BytesIO.read(4)` returns what is there without error). -/
theorem c3_amended_error_cases :
    bdecode (strBytes "i e") = .error ()
    ∧ bdecode (strBytes "d3:fooe") = .error ()
    ∧ bdecode (strBytes "i-0e") = .ok (.int 0)
    ∧ bdecode (strBytes "4:ab") = .ok (.str (strBytes "ab")) :=
  ⟨rfl, rfl, rfl, rfl⟩

/-- Claim C4 counterexample.  With a pending request for piece 0 at
offset 0, a `piece` message carrying index 5 and offset 99 is accepted
and its payload returned — `request_piece` unpacks but never compares
the index and offset — rather than being reported as a protocol
error. -/
theorem c4_mismatched_piece_accepted :
    requestPieceResponse 0 0 16384
      ([0, 0, 0, 10, 7] ++ [0, 0, 0, 5] ++ [0, 0, 0, 99] ++ [171]) = some [171] := rfl

/-- Reading back a 32-bit big-endian encoding gives the value. -/
theorem beVal_be32enc (n : Nat) (h : n < 4294967296) : beVal (be32enc n) = n := by
  simp only [be32enc, beVal, List.foldl, Nat.shiftRight_eq_div_pow]
  omega

/-- Claim C4 (corrected).  Any well-formed `piece` message — whatever
index and offset it carries, matching the pending request or not — has
its `length - 9` payload bytes returned as the requested block; in
particular a payload of 16384 bytes yields exactly those 16384
bytes. -/
theorem c4_amended (reqIdx reqOff reqLen idx off : Nat) (payload : List Nat)
    (h : payload.length + 9 < 4294967296) :
    requestPieceResponse reqIdx reqOff reqLen
      (be32enc (payload.length + 9) ++ 7 :: be32enc idx ++ be32enc off ++ payload)
      = some payload := by
  have hbe := beVal_be32enc (payload.length + 9) h
  simp only [be32enc] at hbe
  simp only [requestPieceResponse, be32enc, List.cons_append, List.nil_append,
    List.length_cons, List.length_append, List.take, List.drop, List.headD]
  rw [hbe]
  simp only [List.nil_append, List.cons_append, List.append_eq, List.length_append,
    List.length_cons, List.headD]
  rw [if_neg (by omega), if_pos trivial, if_neg (by omega), if_neg (by omega),
    if_neg (by omega), if_neg (by omega)]
  simp [Nat.add_sub_cancel, List.take_length]

/-- Witness for C4: a 16 KiB block request answered by a `piece`
message of payload length `16393 - 9 = 16384` yields exactly the
16384 payload bytes. -/
theorem c4_amended_witness :
    requestPieceResponse 0 0 16384
      (be32enc ((List.replicate 16384 (0 : Nat)).length + 9) ++ 7 :: be32enc 1 ++ be32enc 0
        ++ List.replicate 16384 0)
      = some (List.replicate 16384 0) :=
  c4_amended 0 0 16384 1 0 (List.replicate 16384 0) (by rw [List.length_replicate]; omega)

/-- Claim C7 (confirmed).  Compact peer-list parsing takes each
consecutive 6-byte group as 4 IPv4 bytes and a big-endian 2-byte port,
in input order; any input shorter than 6 bytes (in particular a
trailing remainder) is dropped without error; a 12-byte input with a
3-byte trailer yields exactly two peers. -/
theorem c7_parse_peers_compact :
    (∀ a b c d p q : Nat, ∀ rest : List Nat,
      parsePeersCompact (a :: b :: c :: d :: p :: q :: rest)
        = (ipString a b c d, p * 256 + q) :: parsePeersCompact rest)
    ∧ (∀ l : List Nat, l.length < 6 → parsePeersCompact l = [])
    ∧ parsePeersCompact [10, 0, 0, 1, 31, 144, 192, 168, 0, 1, 4, 210, 1, 2, 3]
        = [("10.0.0.1", 8080), ("192.168.0.1", 1234)] := by
  refine ⟨fun a b c d p q rest => rfl, ?_, rfl⟩
  intro l hl
  rcases l with _ | ⟨a, _ | ⟨b, _ | ⟨c, _ | ⟨d, _ | ⟨p, _ | ⟨q, rest⟩⟩⟩⟩⟩⟩ <;>
    first
      | rfl
      | (simp only [List.length_cons] at hl; omega)

/-- Witness for C7: the trailing 5-byte remainder alone parses to no
peers and raises no error. -/
theorem c7_parse_peers_compact_witness : parsePeersCompact [1, 2, 3, 4, 5] = [] :=
  c7_parse_peers_compact.2.1 [1, 2, 3, 4, 5] (by decide)

/-- Claim C8 counterexample.  An `info` dict containing both `length`
and `files` does not fail: `_parse_info` takes the `files` branch and
produces a multi-file `TorrentInfo`, silently ignoring `length`. -/
theorem c8_both_shapes_accepted :
    parseInfo bothShapesInfo
      = .ok ⟨strBytes "a.txt", 16384, [List.range 20], false,
             some [⟨[102], 3, none⟩], none, none⟩ := rfl

/-- Claim C8 (corrected).  When both shapes are present `_parse_info`
succeeds with the multi-file parse (no `MetadataError`); only when
neither `files` nor `length` is present does parsing fail (a
`KeyError` on `info[b'length']`). -/
theorem c8_amended :
    parseInfo bothShapesInfo
      = .ok ⟨strBytes "a.txt", 16384, [List.range 20], false,
             some [⟨[102], 3, none⟩], none, none⟩
    ∧ (∀ info, lookupA (strBytes "files") info = none →
        lookupA (strBytes "length") info = none → parseInfo info = .error ()) := by
  refine ⟨rfl, ?_⟩
  intro info hf hl
  unfold parseInfo
  repeat' split
  all_goals simp_all

/-- Witness for C8: the empty `info` dict (neither shape present)
fails to parse. -/
theorem c8_amended_witness : parseInfo [] = .error () :=
  c8_amended.2 [] rfl rfl

/-- Claim C9 (confirmed).  Every HTTP announce parameter set carries
`port = '6881'` — a literal in `_prepare_http_announce` — whatever the
tracker's state (which holds no port field at all) and whatever the
event. -/
theorem c9_port_always_6881 (t : TrackerState) (event : String) :
    lookupParam "port" (prepareHttpAnnounce t event) = some (.s "6881") := rfl

/-- Claim C10 (confirmed).  A top-level `e` decodes to the `None`
sentinel; consequently in `"d3:fooee"` — a dict whose key `foo` is
followed by no value — the first end marker is consumed as the missing
value, mapping `foo` to `None`, and the second closes the dict. -/
theorem c10_end_marker_none :
    bdecode (strBytes "e") = .ok .null
    ∧ bdecode (strBytes "d3:fooee") = .ok (.dict [(strBytes "foo", .null)]) :=
  ⟨rfl, rfl⟩

/-! ## Order properties of the key comparison -/

/-- Totality of byte-string order. -/
theorem bytesLe_total : ∀ a b : List Nat, bytesLe a b = true ∨ bytesLe b a = true := by
  intro a
  induction a with
  | nil => intro b; left; rfl
  | cons x xs ih =>
    intro b
    cases b with
    | nil => right; rfl
    | cons y ys =>
      simp only [bytesLe, Bool.or_eq_true, Bool.and_eq_true, decide_eq_true_eq]
      rcases Nat.lt_trichotomy x y with h | h | h
      · left; left; exact h
      · rcases ih ys with h' | h'
        · left; right; exact ⟨h, h'⟩
        · right; right; exact ⟨h.symm, h'⟩
      · right; left; exact h

/-- Transitivity of byte-string order. -/
theorem bytesLe_trans : ∀ a b c : List Nat,
    bytesLe a b = true → bytesLe b c = true → bytesLe a c = true := by
  intro a
  induction a with
  | nil => intro b c _ _; rfl
  | cons x xs ih =>
    intro b c hab hbc
    cases b with
    | nil => simp [bytesLe] at hab
    | cons y ys =>
      cases c with
      | nil => simp [bytesLe] at hbc
      | cons z zs =>
        simp only [bytesLe, Bool.or_eq_true, Bool.and_eq_true, decide_eq_true_eq] at hab hbc ⊢
        rcases hab with h1 | ⟨h1, h1'⟩ <;> rcases hbc with h2 | ⟨h2, h2'⟩
        · left; omega
        · left; omega
        · left; omega
        · right; exact ⟨by omega, ih ys zs h1' h2'⟩

/-- Antisymmetry of byte-string order. -/
theorem bytesLe_antisymm : ∀ a b : List Nat,
    bytesLe a b = true → bytesLe b a = true → a = b := by
  intro a
  induction a with
  | nil =>
    intro b _ hba
    cases b with
    | nil => rfl
    | cons y ys => simp [bytesLe] at hba
  | cons x xs ih =>
    intro b hab hba
    cases b with
    | nil => simp [bytesLe] at hab
    | cons y ys =>
      simp only [bytesLe, Bool.or_eq_true, Bool.and_eq_true, decide_eq_true_eq] at hab hba
      rcases hab with h1 | ⟨h1, h1'⟩ <;> rcases hba with h2 | ⟨h2, h2'⟩ <;>
        first
          | omega
          | (subst h1; omega)
          | (exact absurd h2 (by omega))
          | (rw [h1, ih ys h1' h2'])

instance {β : Type} : IsTotal (List Nat × β) entryLe :=
  ⟨fun p q => bytesLe_total p.1 q.1⟩

instance {β : Type} : IsTrans (List Nat × β) entryLe :=
  ⟨fun p q r => bytesLe_trans p.1 q.1 r.1⟩

instance {β : Type} : IsAntisymm (List Nat × β) (entryLt (β := β)) :=
  ⟨fun p q hpq hqp => absurd (bytesLe_antisymm p.1 q.1 hpq.1 hqp.1) hpq.2⟩

instance {β : Type} : IsTrans (List Nat × β) (entryLt (β := β)) := by
  refine ⟨fun p q r hpq hqr => ⟨bytesLe_trans _ _ _ hpq.1 hqr.1, fun he => ?_⟩⟩
  exact hqr.2 (bytesLe_antisymm q.1 r.1 hqr.1 (he ▸ hpq.1))

/-! ## Decimal digit lemmas -/

/-- The digit rendering is independent of the fuel once it exceeds the
number. -/
theorem natToDigitsF_irrel : ∀ n f1 f2 : Nat, n < f1 → n < f2 →
    natToDigitsF f1 n = natToDigitsF f2 n := by
  intro n
  induction n using Nat.strong_induction_on with
  | _ n ih =>
    intro f1 f2 h1 h2
    match f1, f2 with
    | g1 + 1, g2 + 1 =>
      simp only [natToDigitsF]
      by_cases h : n < 10
      · simp [h]
      · simp only [if_neg h]
        rw [ih (n / 10) (by omega) g1 g2 (by omega) (by omega)]

/-- Unfolding equation for `natToDigits`. -/
theorem natToDigits_eq (n : Nat) :
    natToDigits n = if n < 10 then [48 + n] else natToDigits (n / 10) ++ [48 + n % 10] := by
  show natToDigitsF (n + 1) n = _
  simp only [natToDigitsF]
  by_cases h : n < 10
  · simp [h]
  · simp only [if_neg h]
    rw [natToDigitsF_irrel (n / 10) n (n / 10 + 1) (by omega) (by omega)]
    rfl

/-- Every rendered digit byte is an ASCII digit. -/
theorem natToDigits_digits (n : Nat) : ∀ c ∈ natToDigits n, isDigit c = true := by
  induction n using Nat.strong_induction_on with
  | _ n ih =>
    rw [natToDigits_eq]
    by_cases h : n < 10
    · simp only [if_pos h, List.mem_singleton]
      rintro c rfl
      simp [isDigit]
      omega
    · simp only [if_neg h, List.mem_append, List.mem_singleton]
      rintro c (hc | rfl)
      · exact ih (n / 10) (by omega) c hc
      · simp [isDigit]
        omega

/-- The digit rendering is a nonempty list starting with a digit. -/
theorem natToDigits_cons (n : Nat) :
    ∃ c cs, natToDigits n = c :: cs ∧ isDigit c = true := by
  have hd := natToDigits_digits n
  rw [natToDigits_eq] at hd ⊢
  by_cases h : n < 10
  · simp only [if_pos h] at hd ⊢
    exact ⟨48 + n, [], rfl, hd _ (List.mem_singleton.2 rfl)⟩
  · simp only [if_neg h] at hd ⊢
    obtain ⟨c, cs, hc, _⟩ := natToDigits_cons (n / 10)
    refine ⟨c, cs ++ [48 + n % 10], by rw [hc]; rfl, ?_⟩
    exact hd c (by simp [hc])
termination_by n
decreasing_by omega

/-- Folding the rendered digits back recovers the number. -/
theorem digitsToNat_natToDigits (n : Nat) : digitsToNat (natToDigits n) = n := by
  induction n using Nat.strong_induction_on with
  | _ n ih =>
    rw [natToDigits_eq]
    by_cases h : n < 10
    · simp only [if_pos h, digitsToNat, List.foldl]
      omega
    · simp only [if_neg h, digitsToNat, List.foldl_append, List.foldl]
      have := ih (n / 10) (by omega)
      simp only [digitsToNat] at this
      rw [this]
      omega

/-! ## takeWhile / dropWhile on a digit run -/

/-- `takeWhile isDigit` of a digit run followed by a non-digit is the run. -/
theorem takeWhile_digits (ds : List Nat) (b : Nat) (r : List Nat)
    (hds : ∀ c ∈ ds, isDigit c = true) (hb : isDigit b = false) :
    (ds ++ b :: r).takeWhile isDigit = ds := by
  induction ds with
  | nil => simp [hb]
  | cons c cs ih =>
    have hc := hds c (by simp)
    simp only [List.cons_append, List.takeWhile_cons_of_pos hc]
    rw [ih (fun c hc => hds c (by simp [hc]))]

/-- `dropWhile isDigit` of a digit run followed by a non-digit is the rest. -/
theorem dropWhile_digits (ds : List Nat) (b : Nat) (r : List Nat)
    (hds : ∀ c ∈ ds, isDigit c = true) (hb : isDigit b = false) :
    (ds ++ b :: r).dropWhile isDigit = b :: r := by
  induction ds with
  | nil => simp [hb]
  | cons c cs ih =>
    have hc := hds c (by simp)
    simp only [List.cons_append, List.dropWhile_cons_of_pos hc]
    exact ih (fun c hc => hds c (by simp [hc]))

/-! ## The elementary parsers on encoder output -/

/-- `decode_int`'s digit loop over a rendered number followed by `e`. -/
theorem decIntDigits_enc (sign : Int) (n : Nat) (rest : List Nat) :
    decIntDigits sign (natToDigits n ++ 101 :: rest) = .ok (sign * n, rest) := by
  unfold decIntDigits
  rw [dropWhile_digits _ _ _ (natToDigits_digits n) (by decide),
    takeWhile_digits _ _ _ (natToDigits_digits n) (by decide),
    digitsToNat_natToDigits]

/-- `decode_int` inverts the integer encoding. -/
theorem decInt_enc (i : Int) (rest : List Nat) :
    decInt (intToBytes i ++ 101 :: rest) = .ok (i, rest) := by
  by_cases h : i < 0
  · rw [intToBytes, if_pos h, List.cons_append]
    simp only [decInt]
    rw [if_pos trivial, decIntDigits_enc]
    congr 1
    rw [Prod.mk.injEq]
    constructor
    · omega
    · rfl
  · rw [intToBytes, if_neg h]
    obtain ⟨c, cs, hc, hdig⟩ := natToDigits_cons i.toNat
    rw [hc, List.cons_append]
    simp only [decInt]
    have hne : ¬ c = 45 := by
      simp only [isDigit, Bool.and_eq_true, decide_eq_true_eq] at hdig
      omega
    rw [if_neg hne, ← List.cons_append, ← hc, decIntDigits_enc]
    congr 1
    rw [Prod.mk.injEq]
    constructor
    · omega
    · rfl

/-- `decode_string` inverts the byte-string encoding. -/
theorem decStr_enc (s rest : List Nat) :
    decStr (encStrBytes s ++ rest) = .ok (s, rest) := by
  have harr : encStrBytes s ++ rest = natToDigits s.length ++ 58 :: (s ++ rest) := by
    simp [encStrBytes]
  rw [harr]
  unfold decStr
  rw [dropWhile_digits _ _ _ (natToDigits_digits s.length) (by decide),
    takeWhile_digits _ _ _ (natToDigits_digits s.length) (by decide)]
  obtain ⟨c, cs, hc, _⟩ := natToDigits_cons s.length
  have hne : (natToDigits s.length).isEmpty = false := by rw [hc]; rfl
  rw [hne]
  simp only [Bool.false_eq_true, if_false, digitsToNat_natToDigits,
    List.take_left, List.drop_left]

/-- Reading the end marker with any positive fuel. -/
theorem decodeF_e (g : Nat) (rest : List Nat) :
    decodeF (g + 1) (101 :: rest) = .ok (.null, rest) := by
  simp [decodeF, isDigit]

/-- Decoding an encoded byte string with any positive fuel. -/
theorem decodeF_str (g : Nat) (s rest : List Nat) :
    decodeF (g + 1) (encStrBytes s ++ rest) = .ok (.str s, rest) := by
  obtain ⟨c, cs, hc, hdig⟩ := natToDigits_cons s.length
  have hsplit : encStrBytes s ++ rest = c :: (cs ++ 58 :: (s ++ rest)) := by
    simp [encStrBytes, hc]
  rw [hsplit]
  have hd : isDigit c = true := hdig
  simp only [isDigit, Bool.and_eq_true, decide_eq_true_eq] at hd
  unfold decodeF
  rw [if_neg (by omega), if_pos hdig, ← hsplit, decStr_enc]

/-- Decoding an encoded integer with any positive fuel. -/
theorem decodeF_int (g : Nat) (i : Int) (rest : List Nat) :
    decodeF (g + 1) (105 :: (intToBytes i ++ 101 :: rest)) = .ok (.int i, rest) := by
  unfold decodeF
  rw [if_pos rfl, decInt_enc]

/-! ## Fuel-bound arithmetic -/

/-- Every value needs at least one unit of fuel. -/
theorem nodes_pos (v : BVal) : 1 ≤ nodes v := by
  cases v <;> simp [nodes]

/-- The list loop needs at least two units of fuel. -/
theorem nodesL_pos (vs : List BVal) : 2 ≤ nodesL vs := by
  cases vs with
  | nil => simp [nodesL]
  | cons v vs =>
    have h1 := nodes_pos v
    have h2 : 2 ≤ nodesL vs := nodesL_pos vs
    simp only [nodesL]
    omega

/-- The dict loop needs at least two units of fuel. -/
theorem nodesD_pos (es : List (List Nat × BVal)) : 2 ≤ nodesD es := by
  cases es with
  | nil => simp [nodesD]
  | cons p es =>
    have h1 := nodes_pos p.2
    have h2 : 2 ≤ nodesD es := nodesD_pos es
    cases p
    simp only [nodesD]
    omega

/-- Sum characterisation of the dict fuel bound. -/
theorem nodesD_eq_sum (es : List (List Nat × BVal)) :
    nodesD es = (es.map (fun p => nodes p.2)).sum + 2 := by
  induction es with
  | nil => rfl
  | cons p es ih => cases p; simp [nodesD, ih]; omega

/-- The dict fuel bound is invariant under permutation of the entries. -/
theorem nodesD_perm {es1 es2 : List (List Nat × BVal)} (h : es1.Perm es2) :
    nodesD es1 = nodesD es2 := by
  rw [nodesD_eq_sum, nodesD_eq_sum, (h.map _).sum_eq]

/-! ## Well-formedness helpers -/

/-- A well-formed value is not the `None` sentinel. -/
theorem wfB_ne_null {v : BVal} (h : wfB v = true) : v ≠ .null := by
  intro hv
  subst hv
  simp [wfB] at h

/-- Members of a well-formed list are well-formed. -/
theorem wfL_mem {vs : List BVal} (h : wfL vs = true) {v : BVal} (hv : v ∈ vs) :
    wfB v = true := by
  induction vs with
  | nil => cases hv
  | cons x xs ih =>
    simp only [wfL, Bool.and_eq_true] at h
    rcases List.mem_cons.1 hv with rfl | hv'
    · exact h.1
    · exact ih h.2 hv'

/-- Value well-formedness of entries, as a membership statement. -/
theorem wfDv_iff {es : List (List Nat × BVal)} :
    wfDv es = true ↔ ∀ p ∈ es, wfB p.2 = true := by
  induction es with
  | nil => simp [wfDv]
  | cons p es ih =>
    cases p
    simp only [wfDv, Bool.and_eq_true, ih, List.mem_cons]
    constructor
    · rintro ⟨h1, h2⟩ q (rfl | hq)
      · exact h1
      · exact h2 q hq
    · intro h
      exact ⟨h _ (Or.inl rfl), fun q hq => h q (Or.inr hq)⟩

/-- Key-distinct well-formedness implies value well-formedness. -/
theorem wfD_wfDv {d : List (List Nat × BVal)} (h : wfD d = true) : wfDv d = true := by
  induction d with
  | nil => rfl
  | cons p es ih =>
    cases p
    simp only [wfD, Bool.and_eq_true] at h
    simp only [wfDv, Bool.and_eq_true]
    exact ⟨h.1.2, ih h.2⟩

/-- Value well-formedness is invariant under permutation. -/
theorem wfDv_perm {d1 d2 : List (List Nat × BVal)} (hp : d1.Perm d2)
    (h : wfDv d1 = true) : wfDv d2 = true := by
  rw [wfDv_iff] at h ⊢
  exact fun p hp' => h p (hp.mem_iff.2 hp')

/-- `keyAbsent` as a membership statement. -/
theorem keyAbsent_iff {k : List Nat} {es : List (List Nat × BVal)} :
    keyAbsent k es = true ↔ ∀ p ∈ es, p.1 ≠ k := by
  induction es with
  | nil => simp [keyAbsent]
  | cons p es ih =>
    cases p
    simp only [keyAbsent, Bool.and_eq_true, Bool.not_eq_eq_eq_not, Bool.not_true,
      decide_eq_false_iff_not, ih, List.mem_cons]
    constructor
    · rintro ⟨h1, h2⟩ q (rfl | hq)
      · exact h1
      · exact h2 q hq
    · intro h
      exact ⟨h _ (Or.inl rfl), fun q hq => h q (Or.inr hq)⟩

/-- In a key-distinct dict, the keys are pairwise different. -/
theorem wfD_pairwise {d : List (List Nat × BVal)} (h : wfD d = true) :
    List.Pairwise (fun p q => p.1 ≠ q.1) d := by
  induction d with
  | nil => exact .nil
  | cons p es ih =>
    cases p
    simp only [wfD, Bool.and_eq_true] at h
    refine .cons (fun q hq hk => ?_) (ih h.2)
    exact (keyAbsent_iff.1 h.1.1 q hq) hk.symm

/-- In a key-distinct dict, membership determines the lookup. -/
theorem lookupA_of_mem {d : List (List Nat × BVal)} {k : List Nat} {v : BVal}
    (hd : wfD d = true) (hm : (k, v) ∈ d) : lookupA k d = some v := by
  induction d with
  | nil => cases hm
  | cons p es ih =>
    obtain ⟨k', v'⟩ := p
    simp only [wfD, Bool.and_eq_true] at hd
    rcases List.mem_cons.1 hm with heq | hm'
    · obtain ⟨rfl, rfl⟩ := Prod.mk.injEq .. ▸ heq
      simp [lookupA]
    · simp only [lookupA]
      rw [if_neg ?_]
      · exact ih hd.2 hm'
      · intro hk
        exact (keyAbsent_iff.1 hd.1.1 (k, v) hm') (by rw [hk])

/-! ## Python equality helpers -/

/-- Only `None` compares equal to `None`. -/
theorem pyEq_null {v : BVal} (h : pyEq .null v = true) : v = .null := by
  cases v <;> simp [pyEq] at h ⊢

/-- Entry-wise lookup equalities give dict equality. -/
theorem pyEqD_of_lookups (ps d : List (List Nat × BVal))
    (h : ∀ p ∈ ps, ∃ v, lookupA p.1 d = some v ∧ pyEq p.2 v = true) :
    pyEqD ps d = true := by
  induction ps with
  | nil => rfl
  | cons p ps ih =>
    obtain ⟨k, w⟩ := p
    obtain ⟨v, hv, hpv⟩ := h (k, w) (by simp)
    simp only [pyEqD, hv, Bool.and_eq_true]
    exact ⟨hpv, ih (fun q hq => h q (by simp [hq]))⟩

/-! ## Encoded entries and sorting -/

/-- `encodeD` succeeds exactly on the pointwise relation. -/
theorem encodeD_ok_iff {es : List (List Nat × BVal)} {ebs : List (List Nat × List Nat)} :
    encodeD es = .ok ebs ↔ List.Forall₂ EncR es ebs := by
  induction es generalizing ebs with
  | nil =>
    constructor
    · intro h
      obtain rfl : ([] : List (List Nat × List Nat)) = ebs := by
        simpa [encodeD] using h
      exact .nil
    · rintro ⟨⟩
      rfl
  | cons p es ih =>
    obtain ⟨k, v⟩ := p
    constructor
    · intro h
      simp only [encodeD] at h
      cases hv : encodeB v with
      | error e => rw [hv] at h; cases h
      | ok ev =>
        rw [hv] at h
        cases hr : encodeD es with
        | error e => rw [hr] at h; cases h
        | ok rest =>
          rw [hr] at h
          obtain rfl : (k, ev) :: rest = ebs := by
            simpa using h
          exact .cons ⟨rfl, hv⟩ (ih.1 hr)
    · intro h
      cases h with
      | cons hqp hrest =>
        rename_i p pbs
        simp only [encodeD, hqp.2, ih.2 hrest]
        have : p = (k, p.2) := by
          obtain ⟨hk, _⟩ := hqp
          exact Prod.ext hk.symm rfl
        rw [this]

/-- `encodeD` succeeds iff every value is encodable. -/
theorem encodeD_ok_exists_iff {es : List (List Nat × BVal)} :
    (∃ ebs, encodeD es = .ok ebs) ↔ ∀ p ∈ es, ∃ ev, encodeB p.2 = .ok ev := by
  induction es with
  | nil => simp [encodeD]
  | cons p es ih =>
    obtain ⟨k, v⟩ := p
    constructor
    · rintro ⟨ebs, h⟩
      simp only [encodeD] at h
      cases hv : encodeB v with
      | error e => rw [hv] at h; cases h
      | ok ev =>
        rw [hv] at h
        cases hr : encodeD es with
        | error e => rw [hr] at h; cases h
        | ok rest =>
          intro q hq
          rcases List.mem_cons.1 hq with rfl | hq'
          · exact ⟨ev, hv⟩
          · exact ih.1 ⟨rest, hr⟩ q hq'
    · intro h
      obtain ⟨ev, hv⟩ := h (k, v) (by simp)
      obtain ⟨rest, hr⟩ := ih.2 (fun q hq => h q (by simp [hq]))
      exact ⟨(k, ev) :: rest, by simp [encodeD, hv, hr]⟩

/-- Ordered insertion respects the pointwise encoding relation. -/
theorem orderedInsert_forall₂ {q : List Nat × BVal} {p : List Nat × List Nat}
    {es : List (List Nat × BVal)} {ebs : List (List Nat × List Nat)}
    (hqp : EncR q p) (h : List.Forall₂ EncR es ebs) :
    List.Forall₂ EncR (List.orderedInsert entryLe q es) (List.orderedInsert entryLe p ebs) := by
  induction h with
  | nil => exact .cons hqp .nil
  | cons hab hrest ih =>
    rename_i a b l1 l2
    have hkey : entryLe q a ↔ entryLe p b := by
      unfold entryLe
      rw [hqp.1, hab.1]
    by_cases hle : entryLe q a
    · simp only [List.orderedInsert, if_pos hle, if_pos (hkey.1 hle)]
      exact .cons hqp (.cons hab hrest)
    · simp only [List.orderedInsert, if_neg hle, if_neg (fun hc => hle (hkey.2 hc))]
      exact .cons hab ih

/-- Insertion sort respects the pointwise encoding relation. -/
theorem insertionSort_forall₂ {es : List (List Nat × BVal)} {ebs : List (List Nat × List Nat)}
    (h : List.Forall₂ EncR es ebs) :
    List.Forall₂ EncR (sortKV es) (sortEntries ebs) := by
  induction h with
  | nil => exact .nil
  | cons hab h ih => exact orderedInsert_forall₂ hab ih

/-- A member of the left list of a `Forall₂` has a related partner. -/
theorem forall₂_mem_left {α β : Type} {r : α → β → Prop} {l1 : List α} {l2 : List β}
    (h : List.Forall₂ r l1 l2) {a : α} (ha : a ∈ l1) : ∃ b ∈ l2, r a b := by
  induction h with
  | nil => cases ha
  | cons hab h ih =>
    rcases List.mem_cons.1 ha with rfl | ha'
    · exact ⟨_, by simp, hab⟩
    · obtain ⟨b, hb, hr⟩ := ih ha'
      exact ⟨b, by simp [hb], hr⟩

/-- Encoding keeps the key sequence. -/
theorem forall₂_keys_eq {es : List (List Nat × BVal)} {ebs : List (List Nat × List Nat)}
    (h : List.Forall₂ EncR es ebs) : ebs.map Prod.fst = es.map Prod.fst := by
  induction h with
  | nil => rfl
  | cons hab h ih => simp [ih, hab.1.symm]

/-! ## Decoder loop steps -/

/-- One element step of the list loop. -/
theorem decodeLF_step {g : Nat} {s : List Nat} {w : BVal} {r : List Nat}
    (hw : decodeF g s = .ok (w, r)) (hnn : w ≠ .null)
    {ws : List BVal} {r' : List Nat} (hrec : decodeLF g r = .ok (ws, r')) :
    decodeLF (g + 1) s = .ok (w :: ws, r') := by
  have h2 : decodeLF (g + 1) s
      = match decodeLF g r with
        | .ok (vs, r') => .ok (w :: vs, r')
        | .error e => .error e := by
    simp only [decodeLF]
    rw [hw]
    cases w with
    | null => exact absurd rfl hnn
    | int i => rfl
    | str a => rfl
    | list l => rfl
    | dict d => rfl
  rw [h2, hrec]

/-- Terminating step of the list loop. -/
theorem decodeLF_nil (g : Nat) (rest : List Nat) :
    decodeLF (g + 2) (101 :: rest) = .ok ([], rest) := by
  simp only [decodeLF]
  rw [decodeF_e]

/-- One entry step of the dict loop. -/
theorem decodeDF_step {g : Nat} {s : List Nat} {k : List Nat} {r : List Nat}
    (hk : decodeF g s = .ok (.str k, r)) {v : BVal} {r' : List Nat}
    (hv : decodeF g r = .ok (v, r'))
    {es : List (List Nat × BVal)} {r'' : List Nat}
    (hrec : decodeDF g r' = .ok (es, r'')) :
    decodeDF (g + 1) s = .ok ((k, v) :: es, r'') := by
  have h2 : decodeDF (g + 1) s
      = match decodeF g r with
        | .ok (v, r') =>
          match decodeDF g r' with
          | .ok (es, r'') => .ok ((k, v) :: es, r'')
          | .error e => .error e
        | .error e => .error e := by
    simp only [decodeDF]
    rw [hk]
  rw [h2, hv]
  show (match decodeDF g r' with
        | Except.ok (es, r'') => Except.ok ((k, v) :: es, r'')
        | Except.error e => Except.error e)
      = Except.ok ((k, v) :: es, r'')
  rw [hrec]

/-- Terminating step of the dict loop. -/
theorem decodeDF_nil (g : Nat) (rest : List Nat) :
    decodeDF (g + 2) (101 :: rest) = .ok ([], rest) := by
  simp only [decodeDF]
  rw [decodeF_e]

/-! ## Joined entry bytes -/

/-- Length of the joined entries as a sum over the entries. -/
theorem joinEntries_length (es : List (List Nat × List Nat)) :
    (joinEntries es).length
      = (es.map (fun p => (encStrBytes p.1).length + p.2.length)).sum := by
  induction es with
  | nil => rfl
  | cons p es ih =>
    obtain ⟨k, ev⟩ := p
    have hj : joinEntries ((k, ev) :: es) = encStrBytes k ++ ev ++ joinEntries es := rfl
    rw [hj]
    simp only [List.length_append, List.map_cons, List.sum_cons, ih]

/-- The joined length is invariant under permutation of the entries. -/
theorem joinEntries_length_perm {e1 e2 : List (List Nat × List Nat)} (h : e1.Perm e2) :
    (joinEntries e1).length = (joinEntries e2).length := by
  rw [joinEntries_length, joinEntries_length, (h.map _).sum_eq]

/-! ## Encoder success on well-formed values -/

/-- A well-formed value encodes successfully, and the fuel bound of the
decoder is at most twice the encoded length. -/
theorem encode_ok_aux : ∀ n : Nat,
    (∀ v, nodes v ≤ n → wfB v = true →
      ∃ eb, encodeB v = .ok eb ∧ nodes v ≤ 2 * eb.length)
    ∧ (∀ vs, nodesL vs ≤ n → wfL vs = true →
      ∃ ebl, encodeL vs = .ok ebl ∧ nodesL vs ≤ 2 * ebl.length + 3)
    ∧ (∀ es, nodesD es ≤ n → wfDv es = true →
      ∃ ebs, encodeD es = .ok ebs ∧ nodesD es ≤ 2 * (joinEntries ebs).length + 3) := by
  intro n
  induction n using Nat.strong_induction_on with
  | _ n ih =>
    refine ⟨?_, ?_, ?_⟩
    · intro v hn hwf
      cases v with
      | null => simp [wfB] at hwf
      | int i =>
        refine ⟨105 :: intToBytes i ++ [101], rfl, ?_⟩
        have h1 : nodes (.int i) = 1 := rfl
        have h2 : (105 :: intToBytes i ++ [101]).length = (intToBytes i).length + 2 := by
          simp
        rw [h1, h2]
        omega
      | str s =>
        refine ⟨encStrBytes s, rfl, ?_⟩
        have h1 : nodes (.str s) = 1 := rfl
        have h2 : (encStrBytes s).length = (natToDigits s.length).length + s.length + 1 := by
          simp [encStrBytes]
          omega
        rw [h1, h2]
        omega
      | list l =>
        simp only [wfB] at hwf
        simp only [nodes] at hn ⊢
        obtain ⟨ebl, hel, hb⟩ :=
          (ih (nodesL l) (by have := nodesL_pos l; omega)).2.1 l (le_refl _) hwf
        refine ⟨108 :: ebl ++ [101], by simp [encodeB, hel], ?_⟩
        simp only [List.length_cons, List.length_append]
        omega
      | dict d =>
        simp only [wfB] at hwf
        simp only [nodes] at hn ⊢
        obtain ⟨ebs, hed, hb⟩ :=
          (ih (nodesD d) (by have := nodesD_pos d; omega)).2.2 d (le_refl _) (wfD_wfDv hwf)
        refine ⟨100 :: joinEntries (sortEntries ebs) ++ [101], by simp [encodeB, hed], ?_⟩
        have hjl : (joinEntries (sortEntries ebs)).length = (joinEntries ebs).length :=
          joinEntries_length_perm (List.perm_insertionSort _ _)
        simp only [List.length_cons, List.length_append, hjl]
        omega
    · intro vs hn hwf
      cases vs with
      | nil =>
        refine ⟨[], rfl, ?_⟩
        simp [nodesL]
      | cons v vs =>
        simp only [wfL, Bool.and_eq_true] at hwf
        simp only [nodesL] at hn ⊢
        have hposv := nodes_pos v
        have hposl := nodesL_pos vs
        obtain ⟨ev, hev, hbv⟩ := (ih (nodes v) (by omega)).1 v (le_refl _) hwf.1
        obtain ⟨evs, hevs, hbs⟩ := (ih (nodesL vs) (by omega)).2.1 vs (le_refl _) hwf.2
        refine ⟨ev ++ evs, by simp [encodeL, hev, hevs], ?_⟩
        simp only [List.length_append]
        omega
    · intro es hn hwf
      cases es with
      | nil =>
        refine ⟨[], rfl, ?_⟩
        simp [nodesD, joinEntries]
      | cons p es =>
        obtain ⟨k, v⟩ := p
        simp only [wfDv, Bool.and_eq_true] at hwf
        simp only [nodesD] at hn ⊢
        have hposv := nodes_pos v
        have hposd := nodesD_pos es
        obtain ⟨ev, hev, hbv⟩ := (ih (nodes v) (by omega)).1 v (le_refl _) hwf.1
        obtain ⟨ebs', hees, hbs⟩ := (ih (nodesD es) (by omega)).2.2 es (le_refl _) hwf.2
        refine ⟨(k, ev) :: ebs', by simp [encodeD, hev, hees], ?_⟩
        have hj : joinEntries ((k, ev) :: ebs') = encStrBytes k ++ ev ++ joinEntries ebs' :=
          rfl
        rw [hj]
        simp only [List.length_append]
        omega

/-! ## Decoding an encoded value -/

/-- Decoding inverts encoding: an encoded well-formed value decodes —
with any sufficient fuel and any trailing bytes — to a value that is
Python-equal (`==`) to the original.  The three conjuncts track the
value parser, the list loop and the dict loop. -/
theorem decode_encode_aux : ∀ n : Nat,
    (∀ v, nodes v ≤ n → wfB v = true → ∀ eb, encodeB v = .ok eb →
      ∀ fuel, nodes v ≤ fuel → ∀ rest, ∃ w,
        decodeF fuel (eb ++ rest) = .ok (w, rest) ∧ pyEq w v = true)
    ∧ (∀ vs, nodesL vs ≤ n → wfL vs = true → ∀ ebl, encodeL vs = .ok ebl →
      ∀ fuel, nodesL vs ≤ fuel → ∀ rest, ∃ ws,
        decodeLF fuel (ebl ++ 101 :: rest) = .ok (ws, rest) ∧ pyEqL ws vs = true)
    ∧ (∀ es, nodesD es ≤ n → wfDv es = true → ∀ ebs, encodeD es = .ok ebs →
      ∀ fuel, nodesD es ≤ fuel → ∀ rest, ∃ ps,
        decodeDF fuel (joinEntries ebs ++ 101 :: rest) = .ok (ps, rest)
          ∧ List.Forall₂ (fun p q => p.1 = q.1 ∧ pyEq p.2 q.2 = true) ps es) := by
  intro n
  induction n using Nat.strong_induction_on with
  | _ n ih =>
    refine ⟨?_, ?_, ?_⟩
    · intro v hn hwf eb henc fuel hfuel rest
      cases v with
      | null => simp [wfB] at hwf
      | int i =>
        have heb : 105 :: intToBytes i ++ [101] = eb := by simpa [encodeB] using henc
        subst heb
        have h1 : nodes (.int i) = 1 := rfl
        rw [h1] at hfuel
        obtain ⟨g, rfl⟩ : ∃ g, fuel = g + 1 := ⟨fuel - 1, by omega⟩
        refine ⟨.int i, ?_, by simp [pyEq]⟩
        have harr : (105 :: intToBytes i ++ [101]) ++ rest
            = 105 :: (intToBytes i ++ 101 :: rest) := by simp
        rw [harr, decodeF_int]
      | str s =>
        have heb : encStrBytes s = eb := by simpa [encodeB] using henc
        subst heb
        have h1 : nodes (.str s) = 1 := rfl
        rw [h1] at hfuel
        obtain ⟨g, rfl⟩ : ∃ g, fuel = g + 1 := ⟨fuel - 1, by omega⟩
        exact ⟨.str s, decodeF_str g s rest, by simp [pyEq]⟩
      | list l =>
        simp only [wfB] at hwf
        have h1 : nodes (.list l) = nodesL l + 1 := rfl
        rw [h1] at hn hfuel
        rcases hel : encodeL l with e | ebl
        · simp [encodeB, hel] at henc
        · simp only [encodeB, hel] at henc
          have heb : 108 :: ebl ++ [101] = eb := by simpa using henc
          subst heb
          have hpos := nodesL_pos l
          obtain ⟨g, rfl⟩ : ∃ g, fuel = g + 1 := ⟨fuel - 1, by omega⟩
          obtain ⟨ws, hdec, hpy⟩ :=
            (ih (nodesL l) (by omega)).2.1 l (le_refl _) hwf ebl hel g (by omega) rest
          refine ⟨.list ws, ?_, by simpa [pyEq] using hpy⟩
          have harr : (108 :: ebl ++ [101]) ++ rest = 108 :: (ebl ++ 101 :: rest) := by
            simp
          rw [harr]
          have hstep : decodeF (g + 1) (108 :: (ebl ++ 101 :: rest))
              = match decodeLF g (ebl ++ 101 :: rest) with
                | .ok (l, r) => .ok (.list l, r)
                | .error e => .error e := by
            simp [decodeF, isDigit]
          rw [hstep, hdec]
      | dict d =>
        simp only [wfB] at hwf
        have h1 : nodes (.dict d) = nodesD d + 1 := rfl
        rw [h1] at hn hfuel
        rcases hed : encodeD d with e | ebs
        · simp [encodeB, hed] at henc
        · simp only [encodeB, hed] at henc
          have heb : 100 :: joinEntries (sortEntries ebs) ++ [101] = eb := by
            simpa using henc
          subst heb
          have hpos := nodesD_pos d
          obtain ⟨g, rfl⟩ : ∃ g, fuel = g + 1 := ⟨fuel - 1, by omega⟩
          have hsorted : encodeD (sortKV d) = .ok (sortEntries ebs) :=
            encodeD_ok_iff.2 (insertionSort_forall₂ (encodeD_ok_iff.1 hed))
          have hperm : (sortKV d).Perm d := List.perm_insertionSort _ _
          have hwfv : wfDv (sortKV d) = true := wfDv_perm hperm.symm (wfD_wfDv hwf)
          have hnd : nodesD (sortKV d) = nodesD d := nodesD_perm hperm
          obtain ⟨ps, hdec, hrel⟩ :=
            (ih (nodesD d) (by omega)).2.2 (sortKV d) (le_of_eq hnd) hwfv
              (sortEntries ebs) hsorted g (by omega) rest
          refine ⟨.dict ps, ?_, ?_⟩
          · have harr : (100 :: joinEntries (sortEntries ebs) ++ [101]) ++ rest
                = 100 :: (joinEntries (sortEntries ebs) ++ 101 :: rest) := by simp
            rw [harr]
            have hstep : decodeF (g + 1) (100 :: (joinEntries (sortEntries ebs) ++ 101 :: rest))
                = match decodeDF g (joinEntries (sortEntries ebs) ++ 101 :: rest) with
                  | .ok (d, r) => .ok (.dict d, r)
                  | .error e => .error e := by
              simp [decodeF, isDigit]
            rw [hstep, hdec]
          · have hlen : ps.length = d.length := by
              rw [hrel.length_eq, hperm.length_eq]
            have hlook : ∀ p ∈ ps, ∃ v, lookupA p.1 d = some v ∧ pyEq p.2 v = true := by
              intro p hp
              obtain ⟨q, hq, hpq⟩ := forall₂_mem_left hrel hp
              refine ⟨q.2, ?_, hpq.2⟩
              rw [hpq.1]
              exact lookupA_of_mem hwf (by simpa using hperm.subset hq)
            simp only [pyEq, Bool.and_eq_true, beq_iff_eq]
            exact ⟨hlen, pyEqD_of_lookups ps d hlook⟩
    · intro vs hn hwf ebl henc fuel hfuel rest
      cases vs with
      | nil =>
        have heb : ([] : List Nat) = ebl := by simpa [encodeL] using henc
        subst heb
        have h1 : nodesL ([] : List BVal) = 2 := rfl
        rw [h1] at hfuel
        obtain ⟨g, rfl⟩ : ∃ g, fuel = g + 2 := ⟨fuel - 2, by omega⟩
        exact ⟨[], by rw [List.nil_append]; exact decodeLF_nil g rest, rfl⟩
      | cons v vs =>
        simp only [wfL, Bool.and_eq_true] at hwf
        have h1 : nodesL (v :: vs) = nodes v + nodesL vs := rfl
        rw [h1] at hn hfuel
        have hposv := nodes_pos v
        have hposl := nodesL_pos vs
        rcases hev : encodeB v with e | ev
        · simp [encodeL, hev] at henc
        · rcases hevs : encodeL vs with e | evs
          · simp [encodeL, hev, hevs] at henc
          · simp only [encodeL, hev, hevs] at henc
            have heb : ev ++ evs = ebl := by simpa using henc
            subst heb
            obtain ⟨g, rfl⟩ : ∃ g, fuel = g + 1 := ⟨fuel - 1, by omega⟩
            obtain ⟨w, hdecw, hpyw⟩ :=
              (ih (nodes v) (by omega)).1 v (le_refl _) hwf.1 ev hev g (by omega)
                (evs ++ 101 :: rest)
            obtain ⟨ws, hdecws, hpyws⟩ :=
              (ih (nodesL vs) (by omega)).2.1 vs (le_refl _) hwf.2 evs hevs g (by omega) rest
            have hwnn : w ≠ .null := fun hw =>
              wfB_ne_null hwf.1 (pyEq_null (hw ▸ hpyw))
            refine ⟨w :: ws, ?_, by simp [pyEqL, hpyw, hpyws]⟩
            have harr : (ev ++ evs) ++ 101 :: rest = ev ++ (evs ++ 101 :: rest) := by simp
            rw [harr]
            exact decodeLF_step hdecw hwnn hdecws
    · intro es hn hwf ebs henc fuel hfuel rest
      cases es with
      | nil =>
        have heb : ([] : List (List Nat × List Nat)) = ebs := by simpa [encodeD] using henc
        subst heb
        have h1 : nodesD ([] : List (List Nat × BVal)) = 2 := rfl
        rw [h1] at hfuel
        obtain ⟨g, rfl⟩ : ∃ g, fuel = g + 2 := ⟨fuel - 2, by omega⟩
        refine ⟨[], ?_, .nil⟩
        have hj : joinEntries ([] : List (List Nat × List Nat)) = [] := rfl
        rw [hj, List.nil_append]
        exact decodeDF_nil g rest
      | cons p es =>
        obtain ⟨k, v⟩ := p
        simp only [wfDv, Bool.and_eq_true] at hwf
        have h1 : nodesD ((k, v) :: es) = nodes v + nodesD es := rfl
        rw [h1] at hn hfuel
        have hposv := nodes_pos v
        have hposd := nodesD_pos es
        rcases hev : encodeB v with e | ev
        · simp [encodeD, hev] at henc
        · rcases hees : encodeD es with e | ebs'
          · simp [encodeD, hev, hees] at henc
          · simp only [encodeD, hev, hees] at henc
            have heb : (k, ev) :: ebs' = ebs := by simpa using henc
            subst heb
            obtain ⟨g', rfl⟩ : ∃ g', fuel = g' + 2 := ⟨fuel - 2, by omega⟩
            have hkey := decodeF_str g' k (ev ++ (joinEntries ebs' ++ 101 :: rest))
            obtain ⟨w, hdecw, hpyw⟩ :=
              (ih (nodes v) (by omega)).1 v (le_refl _) hwf.1 ev hev (g' + 1) (by omega)
                (joinEntries ebs' ++ 101 :: rest)
            obtain ⟨ps, hdecps, hrel⟩ :=
              (ih (nodesD es) (by omega)).2.2 es (le_refl _) hwf.2 ebs' hees (g' + 1)
                (by omega) rest
            refine ⟨(k, w) :: ps, ?_, .cons ⟨rfl, hpyw⟩ hrel⟩
            have harr : joinEntries ((k, ev) :: ebs') ++ 101 :: rest
                = encStrBytes k ++ (ev ++ (joinEntries ebs' ++ 101 :: rest)) := by
              have hj : joinEntries ((k, ev) :: ebs')
                  = encStrBytes k ++ ev ++ joinEntries ebs' := rfl
              rw [hj]
              simp
            rw [harr]
            exact decodeDF_step hkey hdecw hdecps

/-- Claim C5 (confirmed).  For every representable bencode value — any
integer, any byte string, and any finite nesting of lists and dicts
with distinct byte-string keys — encoding succeeds and decoding the
result yields a value Python-`==`-equal to the original (dicts compare
as key→value maps, so the key-sorting done by `encode` is
invisible). -/
theorem c5_decode_encode_roundtrip (v : BVal) (hwf : wfB v = true) :
    ∃ eb, encodeB v = .ok eb ∧ ∃ w, bdecode eb = .ok w ∧ pyEq w v = true := by
  obtain ⟨eb, henc, hlen⟩ := (encode_ok_aux (nodes v)).1 v (le_refl _) hwf
  obtain ⟨w, hdec, hpy⟩ := (decode_encode_aux (nodes v)).1 v (le_refl _) hwf eb henc
    (2 * eb.length + 4) (by omega) []
  refine ⟨eb, henc, w, ?_, hpy⟩
  unfold bdecode
  rw [List.append_nil] at hdec
  rw [hdec]

/-- Witness for C5: a dict with out-of-order keys holding a negative
integer, an empty byte string and an empty dict round-trips. -/
theorem c5_decode_encode_roundtrip_witness :
    wfB (.dict [(strBytes "b", .int (-3)), (strBytes "a", .list [.str [], .dict []])]) = true
    ∧ ∃ eb,
        encodeB (.dict [(strBytes "b", .int (-3)),
          (strBytes "a", .list [.str [], .dict []])]) = .ok eb
        ∧ ∃ w, bdecode eb = .ok w
            ∧ pyEq w (.dict [(strBytes "b", .int (-3)),
                (strBytes "a", .list [.str [], .dict []])]) = true :=
  ⟨rfl, c5_decode_encode_roundtrip _ rfl⟩

/-! ## Canonical dict encoding (claim C6) -/

/-- Keys stay pairwise distinct through `encodeD`. -/
theorem keysNe_of_encodeD {d : List (List Nat × BVal)} {ebs : List (List Nat × List Nat)}
    (hwfp : List.Pairwise (fun (p q : List Nat × BVal) => p.1 ≠ q.1) d)
    (h : encodeD d = .ok ebs) :
    List.Pairwise (fun (p q : List Nat × List Nat) => p.1 ≠ q.1) ebs := by
  have hkeys : ebs.map Prod.fst = d.map Prod.fst := forall₂_keys_eq (encodeD_ok_iff.1 h)
  have hp1 : List.Pairwise (· ≠ ·) (d.map Prod.fst) := List.pairwise_map.2 hwfp
  have hp2 : List.Pairwise (· ≠ ·) (ebs.map Prod.fst) := by rw [hkeys]; exact hp1
  exact List.pairwise_map.1 hp2

/-- Sorting entries with pairwise-distinct keys yields a strictly
key-ascending list. -/
theorem sortEntries_strict (ebs : List (List Nat × List Nat))
    (hne : List.Pairwise (fun p q => p.1 ≠ q.1) ebs) :
    List.Pairwise entryLt (sortEntries ebs) := by
  have hsorted : List.Sorted entryLe (sortEntries ebs) :=
    List.sorted_insertionSort entryLe ebs
  have hp4 : List.Pairwise (fun (p q : List Nat × List Nat) => p.1 ≠ q.1) (sortEntries ebs) :=
    ((List.perm_insertionSort entryLe ebs).pairwise_iff
      (fun h => Ne.symm h)).2 hne
  exact (List.Pairwise.and hsorted hp4).imp (fun h => ⟨h.1, h.2⟩)

/-- `encodeD` of permuted dicts yields permuted entry lists. -/
theorem encodeD_perm {d1 d2 : List (List Nat × BVal)} (hp : d1.Perm d2) :
    ∀ {e1 e2}, encodeD d1 = .ok e1 → encodeD d2 = .ok e2 → e1.Perm e2 := by
  induction hp with
  | nil =>
    intro e1 e2 h1 h2
    obtain rfl : ([] : List (List Nat × List Nat)) = e1 := by simpa [encodeD] using h1
    obtain rfl : ([] : List (List Nat × List Nat)) = e2 := by simpa [encodeD] using h2
    exact .nil
  | cons x _ ih =>
    intro e1 e2 h1 h2
    obtain ⟨k, v⟩ := x
    rename_i l1 l2 _
    simp only [encodeD] at h1 h2
    cases hv : encodeB v with
    | error e => rw [hv] at h1; cases h1
    | ok ev =>
      rw [hv] at h1 h2
      cases hr1 : encodeD l1 with
      | error e => rw [hr1] at h1; cases h1
      | ok r1 =>
        cases hr2 : encodeD l2 with
        | error e => rw [hr2] at h2; cases h2
        | ok r2 =>
          rw [hr1] at h1
          rw [hr2] at h2
          obtain rfl : (k, ev) :: r1 = e1 := by simpa using h1
          obtain rfl : (k, ev) :: r2 = e2 := by simpa using h2
          exact .cons _ (ih hr1 hr2)
  | swap x y l =>
    intro e1 e2 h1 h2
    obtain ⟨kx, vx⟩ := x
    obtain ⟨ky, vy⟩ := y
    simp only [encodeD] at h1 h2
    cases hvy : encodeB vy with
    | error e => rw [hvy] at h1 h2; cases h1
    | ok evy =>
      rw [hvy] at h1 h2
      cases hvx : encodeB vx with
      | error e => rw [hvx] at h1 h2; cases h1
      | ok evx =>
        rw [hvx] at h1 h2
        cases hr : encodeD l with
        | error e => rw [hr] at h1 h2; cases h1
        | ok r =>
          rw [hr] at h1 h2
          obtain rfl : (ky, evy) :: (kx, evx) :: r = e1 := by simpa using h1
          obtain rfl : (kx, evx) :: (ky, evy) :: r = e2 := by simpa using h2
          exact .swap _ _ _
  | trans h12 _ ih1 ih2 =>
    intro e1 e2 h1 h2
    obtain ⟨em, hm⟩ := encodeD_ok_exists_iff.2
      (fun p hp' => encodeD_ok_exists_iff.1 ⟨e1, h1⟩ p (h12.mem_iff.2 hp'))
    exact (ih1 h1 hm).trans (ih2 hm h2)

/-- Claim C6 (confirmed).  `encode` of a dict emits its keys in
strictly ascending byte-lexicographic order whatever the insertion
order, and two dicts that are equal as key→value maps — the same
entries in any insertion order — encode to identical bytes (both
branches of `encode` also fail together when a value is
unencodable). -/
theorem c6_encode_dict_canonical (d1 d2 : List (List Nat × BVal))
    (hwf : wfD d1 = true) (hperm : d1.Perm d2) :
    (∀ ebs, encodeD d1 = .ok ebs → List.Pairwise entryLt (sortEntries ebs))
    ∧ encodeB (.dict d1) = encodeB (.dict d2) := by
  have hp1 : List.Pairwise (fun (p q : List Nat × BVal) => p.1 ≠ q.1) d1 :=
    wfD_pairwise hwf
  have hp2 : List.Pairwise (fun (p q : List Nat × BVal) => p.1 ≠ q.1) d2 :=
    (hperm.pairwise_iff (fun h => Ne.symm h)).1 hp1
  constructor
  · intro ebs h
    exact sortEntries_strict ebs (keysNe_of_encodeD hp1 h)
  · rcases hed1 : encodeD d1 with e | ebs1
    · rcases hed2 : encodeD d2 with e2 | ebs2
      · simp [encodeB, hed1, hed2]
      · exfalso
        have h2 := encodeD_ok_exists_iff.1 ⟨ebs2, hed2⟩
        obtain ⟨ebs1', h⟩ :=
          encodeD_ok_exists_iff.2 (fun p hp' => h2 p (hperm.subset hp'))
        rw [hed1] at h
        cases h
    · rcases hed2 : encodeD d2 with e2 | ebs2
      · exfalso
        have h1 := encodeD_ok_exists_iff.1 ⟨ebs1, hed1⟩
        obtain ⟨ebs2', h⟩ :=
          encodeD_ok_exists_iff.2 (fun p hp' => h1 p (hperm.symm.subset hp'))
        rw [hed2] at h
        cases h
      · have hebs : ebs1.Perm ebs2 := encodeD_perm hperm hed1 hed2
        have hs1 : List.Pairwise entryLt (sortEntries ebs1) :=
          sortEntries_strict ebs1 (keysNe_of_encodeD hp1 hed1)
        have hs2 : List.Pairwise entryLt (sortEntries ebs2) :=
          sortEntries_strict ebs2 (keysNe_of_encodeD hp2 hed2)
        have hsp : (sortEntries ebs1).Perm (sortEntries ebs2) :=
          (List.perm_insertionSort entryLe ebs1).trans
            (hebs.trans (List.perm_insertionSort entryLe ebs2).symm)
        have hsort_eq : sortEntries ebs1 = sortEntries ebs2 :=
          List.eq_of_perm_of_sorted hsp hs1 hs2
        simp [encodeB, hed1, hed2, hsort_eq]

/-- Witness for C6: the two-entry dict `{b: 1, a: 2}` inserted in
either order sorts its keys strictly and encodes identically. -/
theorem c6_encode_dict_canonical_witness :
    wfD [(strBytes "b", .int 1), (strBytes "a", .int 2)] = true
    ∧ ((∀ ebs, encodeD [(strBytes "b", .int 1), (strBytes "a", .int 2)] = .ok ebs →
          List.Pairwise entryLt (sortEntries ebs))
        ∧ encodeB (.dict [(strBytes "b", .int 1), (strBytes "a", .int 2)])
            = encodeB (.dict [(strBytes "a", .int 2), (strBytes "b", .int 1)])) :=
  ⟨rfl, c6_encode_dict_canonical _ _ rfl (List.Perm.swap _ _ _)⟩
